import Mathlib

/-
Verification of the TOCBOT chatbot core (src/main.py) against its
natural-language specification.  The Python code is shallowly embedded:
strings are Lean strings (internally lists of characters), the stateful
dialogue history is explicit state passing, and the external collaborators
(Perplexity client, sympy/eval, the regex engine, the spacy tagger) are
oracles passed in as parameters.
-/

namespace Tocbot

/-! Python string primitives used by the source. -/

/-- ASCII whitespace, as stripped and split by Python string operations. -/
def isPySpace (c : Char) : Bool :=
  c = ' ' || c = '\t' || c = '\n' || c = '\r' || c = '\x0b' || c = '\x0c'

/-- Python str.strip with no arguments: drop leading and trailing whitespace. -/
def pyStrip (l : List Char) : List Char :=
  ((l.dropWhile isPySpace).reverse.dropWhile isPySpace).reverse

/-- Python str.lower (ASCII letters). -/
def pyLower (l : List Char) : List Char := l.map Char.toLower

/-- Everything after the first occurrence of sep, modelling
s.split(sep, 1)[1] when sep occurs in s (all uses in the source are guarded
by a startswith check that guarantees this). -/
def afterFirst (sep : Char) : List Char → List Char
  | [] => []
  | c :: t => if c = sep then t else afterFirst sep t

/-- Everything before the first occurrence of sep. -/
def beforeFirst (sep : Char) (l : List Char) : List Char :=
  l.takeWhile (fun c => c != sep)

/-- Python substring membership, sub in s. -/
def hasSubstr (p : List Char) : List Char → Bool
  | [] => p.isPrefixOf []
  | c :: t => p.isPrefixOf (c :: t) || hasSubstr p t

/-- Python str.split(sep) for a one-character separator. -/
def pySplit (sep : Char) : List Char → List (List Char)
  | [] => [[]]
  | c :: t =>
    if c = sep then [] :: pySplit sep t
    else
      match pySplit sep t with
      | [] => [[c]]
      | h :: r => (c :: h) :: r

/-- Python sep.join for a one-character separator. -/
def joinSep (sep : Char) : List (List Char) → List Char
  | [] => []
  | [x] => x
  | x :: xs => x ++ sep :: joinSep sep xs

/-- Python str.split() with no argument: tokenize on whitespace runs,
producing no empty tokens.  acc holds the current token, reversed. -/
def pyWordsAux (acc : List Char) : List Char → List (List Char)
  | [] => if acc = [] then [] else [acc.reverse]
  | c :: t =>
    if isPySpace c then
      if acc = [] then pyWordsAux [] t else acc.reverse :: pyWordsAux [] t
    else pyWordsAux (c :: acc) t

/-- Python s.split() with no argument. -/
def pyWords (l : List Char) : List (List Char) := pyWordsAux [] l

/-! SpecializedEngine (src/main.py:95-156). -/

/-- Replace every caret by Python exponentiation, modelling
expr.replace('^', '**') at src/main.py:106. -/
def caretToPow : List Char → List Char
  | [] => []
  | c :: t => if c = '^' then '*' :: '*' :: caretToPow t else c :: caretToPow t

/-- SpecializedEngine.evaluate_math (src/main.py:104-112).  The evaluation
back end (sympy.N(sympy.sympify(.)) when sympy is installed, otherwise
Python eval with empty builtins) is an external evaluator, modelled as an
oracle that either returns the computed value or raises (Except.error
carrying the exception text).  The try/except wraps whatever the oracle
does: a returned value is reported as a Result, a raised exception as a
Math error. -/
def evaluate_math (oracle : String → Except String String) (expr : String) : String :=
  match oracle (String.mk (caretToPow expr.data)) with
  | Except.ok v => "Result: " ++ v
  | Except.error e => "Math error: " ++ e

/-- The closed set of auxiliary/modal/copula verb forms of the fallback
grammaticality heuristic (src/main.py:132). -/
def auxVerbForms : List (List Char) :=
  (["am", "is", "are", "was", "were", "be", "been", "being", "do", "does",
    "did", "have", "has", "had", "will", "would", "shall", "should", "can",
    "could", "may", "might", "must"]).map String.data

/-- Python regex word character (ASCII): letters, digits and underscore. -/
def isWordChar (c : Char) : Bool := c.isAlphanum || c = '_'

/-- Word boundary on the left of a match position, given the character
immediately before that position (none at the start of the string). -/
def prevBoundary : Option Char → Bool
  | none => true
  | some c => !isWordChar c

/-- Word boundary on the right of a match: the next character, if any, is
not a word character. -/
def nextBoundary : List Char → Bool
  | [] => true
  | c :: _ => !isWordChar c

/-- Some alternative of the regex \b(am|is|...|must)\b matches at the head
of l, where prev is the character immediately before this position. -/
def wholeWordHere (prev : Option Char) (l : List Char) : Bool :=
  auxVerbForms.any fun w =>
    w.isPrefixOf l && prevBoundary prev && nextBoundary (l.drop w.length)

/-- re.search of \b(am|is|...|must)\b: try each position left to right. -/
def searchAuxVerb : Option Char → List Char → Bool
  | prev, [] => wholeWordHere prev []
  | prev, c :: t => wholeWordHere prev (c :: t) || searchAuxVerb (some c) t

/-- The regex search at src/main.py:132 succeeds on the given text. -/
def hasAuxVerb (l : List Char) : Bool := searchAuxVerb none l

/-- SpecializedEngine.parse_sentence (src/main.py:114-134).  The optional
spacy pipeline is an external collaborator producing per-token
(part-of-speech tag, dependency label) pairs; none models an unavailable
tagger, selecting the fallback heuristic. -/
def parse_sentence (nlp : Option (String → List (String × String)))
    (sentence : String) : String :=
  if pyStrip sentence.data = [] then "✗ Empty sentence."
  else
    match nlp with
    | some tagger =>
      let toks := tagger (String.mk (pyStrip sentence.data))
      let hasVerb := toks.any fun tk => tk.1 = "VERB" || tk.1 = "AUX"
      let hasSubject := toks.any fun tk =>
        let d := String.mk (pyLower tk.2.data)
        d = "nsubj" || d = "nsubjpass" || d = "csubj" || d = "expl"
      if hasSubject && hasVerb then "✓ Valid English sentence."
      else if hasVerb then "✓ Likely valid sentence."
      else "✗ Grammatically incorrect."
    | none =>
      if (pyWords (pyStrip sentence.data)).length < 3 then "✗ Too short to be valid."
      else if hasAuxVerb (pyLower (pyStrip sentence.data)) then
        "✓ Probably valid English sentence."
      else "✗ Seems incomplete or incorrect."

/-- re.fullmatch("[01]+", s) succeeds: s is nonempty and drawn from 0/1. -/
def fullmatch01 (l : List Char) : Bool :=
  !l.isEmpty && l.all fun c => c = '0' || c = '1'

/-- Python s.endswith("01"). -/
def endsWith01 (l : List Char) : Bool :=
  match l.reverse with
  | '1' :: '0' :: _ => true
  | _ => false

/-- SpecializedEngine.check_dfa_ends_01 (src/main.py:136-139). -/
def check_dfa_ends_01 (binary : String) : String :=
  if fullmatch01 binary.data then
    if endsWith01 binary.data then "✓ Accepted" else "✗ Rejected"
  else "Invalid input: use only 0 and 1"

/-- The scanning loop of check_pda_balanced (src/main.py:142-149): push a
marker on '(', pop on ')' rejecting immediately when the stack is empty,
ignore every other character. -/
def pdaScan (stack : List Char) : List Char → String
  | [] => if stack.isEmpty then "✓ Balanced" else "✗ Unbalanced"
  | c :: rest =>
    if c = '(' then pdaScan (stack.concat '(') rest
    else if c = ')' then
      match stack with
      | [] => "✗ Unbalanced"
      | _ :: _ => pdaScan stack.dropLast rest
    else pdaScan stack rest

/-- SpecializedEngine.check_pda_balanced (src/main.py:141-150). -/
def check_pda_balanced (expr : String) : String := pdaScan [] expr.data

/-- SpecializedEngine.test_regex (src/main.py:152-156): the regex engine is
external, modelled as an oracle that may raise re.error. -/
def test_regex (oracle : String → String → Except String Bool)
    (pattern text : String) : String :=
  match oracle pattern text with
  | Except.ok true => "✓ Match"
  | Except.ok false => "✗ No match"
  | Except.error e => "Regex error: " ++ e

/-! IntentClassifier (src/main.py:160-190). -/

/-- Attempt to match the fixed regex string\s*:\s*(.*)\Z at the head of l,
case-insensitively and with DOTALL; returns the text captured by the
group (original case). -/
def stringColonGroup (l : List Char) : Option (List Char) :=
  if pyLower (l.take 6) = ['s', 't', 'r', 'i', 'n', 'g'] then
    match (l.drop 6).dropWhile isPySpace with
    | ':' :: r => some (r.dropWhile isPySpace)
    | _ => none
  else none

/-- re.search(r"string\s*:\s*(.*)\Z", rest, IGNORECASE | DOTALL)
(src/main.py:183): the leftmost position at which the pattern matches
wins. -/
def searchStringColon : List Char → Option (List Char)
  | [] => none
  | c :: t =>
    match stringColonGroup (c :: t) with
    | some g => some g
    | none => searchStringColon t

/-- A character accepted by the arithmetic-looking guard
re.match(r"^[\d\+\-\*/\(\)\.\^ %]+$", l) (src/main.py:188). -/
def mathCharOk (c : Char) : Bool :=
  c.isDigit || c = '+' || c = '-' || c = '*' || c = '/' || c = '(' ||
    c = ')' || c = '.' || c = '^' || c = ' ' || c = '%'

/-- The whole-string arithmetic guard of the math intent: nonempty and all
characters drawn from the digit/operator set. -/
def mathGuard (l : List Char) : Bool := !l.isEmpty && l.all mathCharOk

/-- IntentClassifier.classify (src/main.py:161-190).  Returns the intent
tag and the parameter dictionary (as an association list). -/
def classify (text : String) : String × List (String × String) :=
  if pyLower (pyStrip text.data) = ['h', 'e', 'l', 'p'] then ("help", [])
  else if pyLower (pyStrip text.data) = ['c', 'l', 'e', 'a', 'r'] then
    ("command", [("cmd", "clear")])
  else if hasSubstr "daily conversation".data (pyLower (pyStrip text.data)) ||
      hasSubstr "everyday chat".data (pyLower (pyStrip text.data)) then
    ("daily", [("message", String.mk (pyStrip text.data))])
  else if List.isPrefixOf "parse:".data (pyLower (pyStrip text.data)) then
    ("parse", [("sentence", String.mk (pyStrip (afterFirst ':' (pyStrip text.data))))])
  else if List.isPrefixOf "dfa:".data (pyLower (pyStrip text.data)) then
    ("dfa", [("input", String.mk (pyStrip (afterFirst ':' (pyStrip text.data))))])
  else if List.isPrefixOf "pda:".data (pyLower (pyStrip text.data)) then
    ("pda", [("input", String.mk (pyStrip (afterFirst ':' (pyStrip text.data))))])
  else if List.isPrefixOf "regex:".data (pyLower (pyStrip text.data)) then
    ("regex",
      [("pattern",
        String.mk (pyStrip ((pySplit ';' (afterFirst ':' (pyStrip text.data))).headD []))),
       ("string",
        String.mk
          (match searchStringColon
              (joinSep ';' ((pySplit ';' (afterFirst ':' (pyStrip text.data))).drop 1)) with
           | some g => pyStrip g
           | none => []))])
  else if mathGuard (pyLower (pyStrip text.data)) then
    ("math", [("expression", String.mk (pyStrip text.data))])
  else ("general", [])

/-! DialogueManager and HybridChatbot (src/main.py:194-274). -/

/-- A conversation turn (src/main.py:199): role, message, and the
datetime.now() timestamp taken at insertion (passed in as a parameter,
since wall-clock time is external). -/
structure Turn where
  role : String
  message : String
  timestamp : String
deriving DecidableEq

/-- DialogueManager.add on a deque with maxlen 30: append on the right,
discarding from the left while over capacity. -/
def pushTurn (h : List Turn) (t : Turn) : List Turn :=
  if 30 < (h ++ [t]).length then (h ++ [t]).drop ((h ++ [t]).length - 30)
  else h ++ [t]

/-- One DialogueManager mutation: an add call or a clear call. -/
inductive HOp where
  | add : Turn → HOp
  | clear : HOp

/-- Apply one history operation. -/
def stepOp (h : List Turn) : HOp → List Turn
  | HOp.add t => pushTurn h t
  | HOp.clear => []

/-- A sequence of DialogueManager.add / clear calls starting from the
empty history of a fresh DialogueManager. -/
def runOps (ops : List HOp) : List Turn := ops.foldl stepOp []

/-- The external collaborators of HybridChatbot: the Perplexity client
(availability and reply behaviour), the evaluator behind evaluate_math,
the regex engine, and the optional spacy tagger. -/
structure Collab where
  available : Bool
  chatReply : String → List Turn → String
  evalOracle : String → Except String String
  regexOracle : String → String → Except String Bool
  nlpTagger : Option (String → List (String × String))

/-- Python dict lookup on the parameter dictionary. -/
def lookupParam : List (String × String) → String → Option String
  | [], _ => none
  | (k, v) :: r, key => if k = key then some v else lookupParam r key

/-- Python params.get(key, dflt). -/
def getParam (params : List (String × String)) (key dflt : String) : String :=
  (lookupParam params key).getD dflt

/-- HybridChatbot._help_text (src/main.py:248-263). -/
def helpText : String :=
  "Help\n\nParsing\n• parse: <sentence> — returns ✓ Valid or ✗ Incorrect.\n\nTheory of Computation\n• dfa: <binary> — accepts if it ends with 01.\n• pda: <expr> — checks balanced parentheses.\n• regex: <pattern>; string: <text> — full-match test.\n• math: <expression> — evaluate safely.\n\nDaily Chat\n• Include 'daily conversation' or 'everyday chat' to use Perplexity.\n\nOther\n• help — show this\n• clear — reset conversation"

/-- HybridChatbot._fallback_text (src/main.py:265-274). -/
def fallbackText : String :=
  "Local Tools:\n• parse: <sentence>\n• dfa: <binary>\n• pda: <parentheses>\n• regex: <pattern>; string: <text>\n• math: e.g., 2^10 + 5\n\nFor normal convo, include 'daily conversation' or 'everyday chat'."

/-- HybridChatbot.chat (src/main.py:215-246): given the collaborators, the
current history, the raw input text and the two datetime.now() values of
the user/assistant add calls, return the updated history and the reply. -/
def chat (env : Collab) (hist : List Turn) (text tu ta : String) :
    List Turn × String :=
  if (classify text).1 = "command" ∧
      lookupParam (classify text).2 "cmd" = some "clear" then
    ([], "✓ Conversation cleared")
  else if (classify text).1 = "help" then (hist, helpText)
  else if (classify text).1 = "daily" then
    let reply :=
      if env.available then
        if env.chatReply (getParam (classify text).2 "message" text) hist = "" then
          "External API didn’t respond."
        else env.chatReply (getParam (classify text).2 "message" text) hist
      else "⚠️ Perplexity API not configured. Set PERPLEXITY_API_KEY."
    (pushTurn (pushTurn hist ⟨"user", text, tu⟩) ⟨"assistant", reply, ta⟩, reply)
  else
    let reply :=
      if (classify text).1 = "parse" then
        parse_sentence env.nlpTagger (getParam (classify text).2 "sentence" text)
      else if (classify text).1 = "dfa" then
        check_dfa_ends_01 (getParam (classify text).2 "input" text)
      else if (classify text).1 = "pda" then
        check_pda_balanced (getParam (classify text).2 "input" text)
      else if (classify text).1 = "regex" then
        test_regex env.regexOracle (getParam (classify text).2 "pattern" "")
          (getParam (classify text).2 "string" "")
      else if (classify text).1 = "math" then
        evaluate_math env.evalOracle (getParam (classify text).2 "expression" text)
      else fallbackText
    (pushTurn (pushTurn hist ⟨"user", text, tu⟩) ⟨"assistant", reply, ta⟩, reply)

/-- A concrete collaborator assignment: no API key configured
(is_available() false) and trivial oracle behaviour, used to run the
orchestrator on concrete inputs. -/
def env0 : Collab where
  available := false
  chatReply := fun _ _ => ""
  evalOracle := fun _ => Except.error "invalid syntax"
  regexOracle := fun _ _ => Except.ok false
  nlpTagger := none

/-! Specification-side predicates, written from the spec's wording. -/

/-- Number of occurrences of a character. -/
def countChar (c : Char) : List Char → Nat
  | [] => 0
  | x :: t => (if x = c then 1 else 0) + countChar c t

/-- The spec's notion of a properly nested parenthesis subsequence: every
prefix has at least as many opens as closes, and the totals agree. -/
def properlyNested (l : List Char) : Prop :=
  (∀ n ≤ l.length, countChar ')' (l.take n) ≤ countChar '(' (l.take n)) ∧
    countChar '(' l = countChar ')' l

/-- The spec's notion of containing one of the auxiliary verb forms as a
whole word: an occurrence whose neighbours, when present, are not word
characters. -/
def containsAuxWholeWord (l : List Char) : Prop :=
  ∃ w ∈ auxVerbForms, ∃ pre post,
    l = pre ++ w ++ post ∧
    (∀ c, pre.getLast? = some c → isWordChar c = false) ∧
    (∀ c, post.head? = some c → isWordChar c = false)

/-- The spec's rest component of a regex command: the text after the first
semicolon, or empty when there is none. -/
def restAfterSemi (l : List Char) : List Char :=
  if ';' ∈ l then afterFirst ';' l else []

/-! Helper lemmas. -/

theorem countChar_nil (c : Char) : countChar c [] = 0 := rfl

theorem countChar_cons (c x : Char) (t : List Char) :
    countChar c (x :: t) = (if x = c then 1 else 0) + countChar c t := rfl

/-- Invariant of the balance-checking scan: with an arbitrary starting
stack, the scan accepts exactly when every prefix of the remaining input
closes no more than the stack plus its own opens, and the final tally
comes out even. -/
theorem pdaScan_balanced_iff (l : List Char) : ∀ stack : List Char,
    (pdaScan stack l = "✓ Balanced" ↔
      ((∀ n ≤ l.length,
          countChar ')' (l.take n) ≤ stack.length + countChar '(' (l.take n)) ∧
        stack.length + countChar '(' l = countChar ')' l)) := by
  induction l with
  | nil =>
    intro stack
    cases stack with
    | nil => simp [pdaScan, countChar]
    | cons s ss =>
      constructor
      · intro h
        simp [pdaScan] at h
      · rintro ⟨-, h2⟩
        exfalso
        simp only [countChar_nil, List.length_cons] at h2
        omega
  | cons c rest ih =>
    intro stack
    by_cases hop : c = '('
    · subst hop
      have hstep : pdaScan stack ('(' :: rest) = pdaScan (stack.concat '(') rest := by
        simp [pdaScan]
      rw [hstep, ih]
      constructor
      · rintro ⟨h1, h2⟩
        constructor
        · rintro (_ | m) hn
          · simp [countChar_nil]
          · have hx := h1 m (by simpa using hn)
            simp only [List.length_concat] at hx
            simp only [List.take_succ_cons, countChar_cons]
            simp only [reduceIte, reduceCtorEq]
            simp
            omega
        · simp only [List.length_concat] at h2
          simp only [countChar_cons]
          simp
          omega
      · rintro ⟨h1, h2⟩
        constructor
        · intro m hm
          have hx := h1 (m + 1) (by simpa using hm)
          simp only [List.take_succ_cons, countChar_cons] at hx
          simp at hx
          simp only [List.length_concat]
          omega
        · have := h2
          simp only [countChar_cons] at this
          simp at this
          simp only [List.length_concat]
          omega
    · by_cases hcl : c = ')'
      · subst hcl
        cases stack with
        | nil =>
          have hstep : pdaScan [] (')' :: rest) = "✗ Unbalanced" := by
            simp [pdaScan]
          rw [hstep]
          constructor
          · intro h
            exact absurd h (by decide)
          · rintro ⟨h1, -⟩
            have hx := h1 1 (by simp)
            simp [countChar] at hx
        | cons s ss =>
          have hstep : pdaScan (s :: ss) (')' :: rest) =
              pdaScan ((s :: ss).dropLast) rest := by
            simp [pdaScan]
          rw [hstep, ih]
          have hdl : (s :: ss).dropLast.length = ss.length := by
            simp
          rw [hdl]
          constructor
          · rintro ⟨h1, h2⟩
            constructor
            · rintro (_ | m) hn
              · simp [countChar_nil]
              · have hx := h1 m (by simpa using hn)
                simp only [List.take_succ_cons, countChar_cons]
                simp
                omega
            · simp only [countChar_cons, List.length_cons]
              simp
              omega
          · rintro ⟨h1, h2⟩
            constructor
            · intro m hm
              have hx := h1 (m + 1) (by simpa using hm)
              simp only [List.take_succ_cons, countChar_cons, List.length_cons] at hx
              simp at hx
              omega
            · simp only [countChar_cons, List.length_cons] at h2
              simp at h2
              omega
      · have hstep : pdaScan stack (c :: rest) = pdaScan stack rest := by
          simp [pdaScan, hop, hcl]
        rw [hstep, ih]
        constructor
        · rintro ⟨h1, h2⟩
          constructor
          · rintro (_ | m) hn
            · simp [countChar_nil]
            · have hx := h1 m (by simpa using hn)
              simp only [List.take_succ_cons, countChar_cons]
              simp [hop, hcl]
              omega
          · simp only [countChar_cons]
            simp [hop, hcl]
            omega
        · rintro ⟨h1, h2⟩
          constructor
          · intro m hm
            have hx := h1 (m + 1) (by simpa using hm)
            simp only [List.take_succ_cons, countChar_cons] at hx
            simp [hop, hcl] at hx
            omega
          · simp only [countChar_cons] at h2
            simp [hop, hcl] at h2
            omega

theorem fullmatch01_iff (l : List Char) :
    fullmatch01 l = true ↔ l ≠ [] ∧ ∀ c ∈ l, c = '0' ∨ c = '1' := by
  simp [fullmatch01, List.all_eq_true, List.isEmpty_iff]

theorem endsWith01_iff (l : List Char) :
    endsWith01 l = true ↔ ∃ p, l = p ++ ['0', '1'] := by
  constructor
  · intro h
    unfold endsWith01 at h
    split at h
    · next x heq =>
      exact ⟨x.reverse, by rw [← List.reverse_reverse l, heq]; simp⟩
    · exact absurd h (by simp)
  · rintro ⟨p, rfl⟩
    unfold endsWith01
    rw [List.reverse_append]
    rfl

theorem pushTurn_length_le (h : List Turn) (t : Turn) (hh : h.length ≤ 30) :
    (pushTurn h t).length ≤ 30 := by
  unfold pushTurn
  by_cases hgt : 30 < (h ++ [t]).length
  · rw [if_pos hgt]
    simp only [List.length_drop, List.length_append, List.length_cons,
      List.length_nil] at *
    omega
  · rw [if_neg hgt]
    simp only [List.length_append, List.length_cons, List.length_nil] at *
    omega

theorem runOps_length_le (ops : List HOp) : ∀ h : List Turn, h.length ≤ 30 →
    (ops.foldl stepOp h).length ≤ 30 := by
  induction ops with
  | nil =>
    intro h hh
    simpa using hh
  | cons op rest ih =>
    intro h hh
    simp only [List.foldl_cons]
    cases op with
    | add t => exact ih _ (pushTurn_length_le h t hh)
    | clear => exact ih _ (by simp [stepOp])

/-- Appending below capacity is a plain append. -/
theorem pushTurn_of_le (l : List Turn) (t : Turn) (hl : l.length ≤ 29) :
    pushTurn l t = l ++ [t] := by
  unfold pushTurn
  rw [if_neg]
  simp only [List.length_append, List.length_cons, List.length_nil]
  omega

/-- Appending at capacity drops the oldest entry. -/
theorem pushTurn_full (l : List Turn) (t : Turn) (hl : l.length = 30) :
    pushTurn l t = l.drop 1 ++ [t] := by
  unfold pushTurn
  rw [if_pos (by simp [hl])]
  rw [show (l ++ [t]).length - 30 = 1 by simp [hl]]
  rw [List.drop_append_of_le_length (by omega)]

/-- Folding adds over a history that stays within capacity appends them. -/
theorem foldl_adds_of_le (ts : List Turn) : ∀ l : List Turn,
    l.length + ts.length ≤ 30 → (ts.map HOp.add).foldl stepOp l = l ++ ts := by
  induction ts with
  | nil =>
    intro l _
    simp
  | cons t ts ih =>
    intro l hl
    simp only [List.map_cons, List.foldl_cons]
    have hp : stepOp l (HOp.add t) = l ++ [t] := by
      show pushTurn l t = l ++ [t]
      refine pushTurn_of_le l t ?_
      simp only [List.length_cons] at hl
      omega
    rw [hp, ih (l ++ [t]) (by simp only [List.length_append, List.length_cons,
      List.length_nil] at hl ⊢; omega)]
    simp

/-- Dropping the head of the mapped range and appending the next value
shifts the index by one. -/
theorem drop_one_map_range (f : Nat → Turn) (n : Nat) :
    ((List.range (n + 1)).map f).drop 1 ++ [f (n + 1)] =
      (List.range (n + 1)).map (fun i => f (i + 1)) := by
  induction n with
  | zero => rfl
  | succ n ih =>
    rw [List.range_succ, List.map_append, List.map_append,
      List.drop_append_of_le_length (by simp)]
    rw [List.map_singleton, List.map_singleton, List.append_assoc, ← ih]
    simp

/-- Bool isPrefixOf agrees with the existence of a completing suffix. -/
theorem isPrefixOf_iff (p : List Char) : ∀ l : List Char,
    (p.isPrefixOf l = true ↔ ∃ t, l = p ++ t) := by
  induction p with
  | nil =>
    intro l
    simp [List.isPrefixOf]
  | cons a p ih =>
    intro l
    cases l with
    | nil => simp [List.isPrefixOf]
    | cons b l2 =>
      rw [List.isPrefixOf_cons₂]
      simp only [Bool.and_eq_true, beq_iff_eq, ih l2]
      constructor
      · rintro ⟨rfl, t, rfl⟩
        exact ⟨t, rfl⟩
      · rintro ⟨t, ht⟩
        injection ht with h1 h2
        exact ⟨h1.symm, t, h2⟩

theorem wholeWordHere_nil (prev : Option Char) : wholeWordHere prev [] = false := by
  rw [Bool.eq_false_iff]
  intro h
  unfold wholeWordHere at h
  rw [List.any_eq_true] at h
  obtain ⟨w, hw, hp⟩ := h
  rw [Bool.and_eq_true, Bool.and_eq_true] at hp
  obtain ⟨t, ht⟩ := (isPrefixOf_iff w []).mp hp.1.1
  have hall : ∀ w2 ∈ auxVerbForms, w2 ≠ [] := by decide
  have h2 := ht.symm
  rw [List.append_eq_nil] at h2
  exact hall w hw h2.1

/-- One position of the aux-verb search succeeds exactly when some listed
word begins here, the left context is a boundary, and the character after
the word (if any) is not a word character. -/
theorem wholeWordHere_iff (prev : Option Char) (l : List Char) :
    wholeWordHere prev l = true ↔
      ∃ w ∈ auxVerbForms, ∃ post, l = w ++ post ∧ prevBoundary prev = true ∧
        (∀ c, post.head? = some c → isWordChar c = false) := by
  unfold wholeWordHere
  rw [List.any_eq_true]
  constructor
  · rintro ⟨w, hw, hp⟩
    rw [Bool.and_eq_true, Bool.and_eq_true] at hp
    obtain ⟨⟨hpre, hprev⟩, hnext⟩ := hp
    obtain ⟨post, rfl⟩ := (isPrefixOf_iff w l).mp hpre
    refine ⟨w, hw, post, rfl, hprev, ?_⟩
    intro c hc
    rw [List.drop_left] at hnext
    cases post with
    | nil => simp at hc
    | cons d rest =>
      simp only [List.head?_cons, Option.some.injEq] at hc
      subst hc
      unfold nextBoundary at hnext
      simpa using hnext
  · rintro ⟨w, hw, post, rfl, hprev, hnext⟩
    refine ⟨w, hw, ?_⟩
    rw [Bool.and_eq_true, Bool.and_eq_true]
    refine ⟨⟨(isPrefixOf_iff w _).mpr ⟨post, rfl⟩, hprev⟩, ?_⟩
    rw [List.drop_left]
    cases post with
    | nil => rfl
    | cons d rest =>
      unfold nextBoundary
      simpa using hnext d rfl

/-- Invariant of the left-to-right aux-verb scan: with prev recording the
character immediately before the current position, the scan succeeds
exactly when some listed word occurs somewhere in the remaining text with
a word boundary on each side (where the boundary of an occurrence at the
very first position is judged from prev). -/
theorem searchAuxVerb_iff (l : List Char) : ∀ prev : Option Char,
    (searchAuxVerb prev l = true ↔
      ∃ w ∈ auxVerbForms, ∃ pre post,
        l = pre ++ w ++ post ∧
        ((pre = [] ∧ prevBoundary prev = true) ∨
          (∃ c, pre.getLast? = some c ∧ isWordChar c = false)) ∧
        (∀ c, post.head? = some c → isWordChar c = false)) := by
  induction l with
  | nil =>
    intro prev
    constructor
    · intro h
      rw [show searchAuxVerb prev [] = wholeWordHere prev [] from rfl,
        wholeWordHere_nil] at h
      exact absurd h (by simp)
    · rintro ⟨w, hw, pre, post, heq, -, -⟩
      have hall : ∀ w2 ∈ auxVerbForms, w2 ≠ [] := by decide
      have h2 := heq.symm
      rw [List.append_eq_nil, List.append_eq_nil] at h2
      exact absurd h2.1.2 (hall w hw)
  | cons c t ih =>
    intro prev
    rw [show searchAuxVerb prev (c :: t) =
      (wholeWordHere prev (c :: t) || searchAuxVerb (some c) t) from rfl]
    rw [Bool.or_eq_true, wholeWordHere_iff, ih (some c)]
    constructor
    · rintro (⟨w, hw, post, heq, hprev, hnext⟩ | ⟨w, hw, pre, post, heq, hpre, hnext⟩)
      · exact ⟨w, hw, [], post, by simpa using heq, Or.inl ⟨rfl, hprev⟩, hnext⟩
      · refine ⟨w, hw, c :: pre, post, by simp [heq], Or.inr ?_, hnext⟩
        rcases hpre with ⟨rfl, hpb⟩ | ⟨d, hd, hdw⟩
        · refine ⟨c, by simp, ?_⟩
          unfold prevBoundary at hpb
          simpa using hpb
        · refine ⟨d, ?_, hdw⟩
          cases pre with
          | nil => simp at hd
          | cons e pre2 => rwa [List.getLast?_cons_cons]
    · rintro ⟨w, hw, pre, post, heq, hpre, hnext⟩
      cases pre with
      | nil =>
        left
        rcases hpre with ⟨-, hpb⟩ | ⟨d, hd, -⟩
        · exact ⟨w, hw, post, by simpa using heq, hpb, hnext⟩
        · simp at hd
      | cons c2 pre2 =>
        right
        rw [List.cons_append, List.cons_append] at heq
        injection heq with h1 h2
        subst h1
        refine ⟨w, hw, pre2, post, h2, ?_, hnext⟩
        rcases hpre with ⟨habs, -⟩ | ⟨d, hd, hdw⟩
        · exact absurd habs (by simp)
        · cases pre2 with
          | nil =>
            left
            refine ⟨rfl, ?_⟩
            have hcd : c = d := by simpa using hd
            unfold prevBoundary
            simp [hcd, hdw]
          | cons e pre3 =>
            right
            refine ⟨d, ?_, hdw⟩
            rwa [List.getLast?_cons_cons] at hd

/-- The aux-verb regex search agrees with the spec's whole-word
containment predicate. -/
theorem hasAuxVerb_iff (l : List Char) :
    hasAuxVerb l = true ↔ containsAuxWholeWord l := by
  rw [hasAuxVerb, searchAuxVerb_iff]
  unfold containsAuxWholeWord
  constructor
  · rintro ⟨w, hw, pre, post, rfl, hpre, hpost⟩
    refine ⟨w, hw, pre, post, rfl, ?_, hpost⟩
    rcases hpre with ⟨rfl, -⟩ | ⟨c, hc, hcw⟩
    · intro c hc
      simp at hc
    · intro c2 hc2
      rw [hc] at hc2
      injection hc2 with h
      rwa [← h]
  · rintro ⟨w, hw, pre, post, rfl, hpre, hpost⟩
    refine ⟨w, hw, pre, post, rfl, ?_, hpost⟩
    cases hp : pre.getLast? with
    | none =>
      exact Or.inl ⟨List.getLast?_eq_none_iff.mp hp, rfl⟩
    | some c =>
      exact Or.inr ⟨c, rfl, hpre c hp⟩

/-! Claim theorems. -/

/-- Claim C1 (code bug): the evaluator performs no input validation of its
own.  Whatever value the external general-purpose evaluation (sympify, or
Python eval with empty builtins) computes for the caret-preprocessed input
is reported verbatim as a Result — including values computed for inputs
far outside the numeric-literal/operator grammar, such as eval("[]"),
which returns the empty list rather than raising.  Only a raised exception
yields an error reply. -/
theorem claim1_eval_is_unguarded (oracle : String → Except String String)
    (expr v : String)
    (h : oracle (String.mk (caretToPow expr.data)) = Except.ok v) :
    evaluate_math oracle expr = "Result: " ++ v := by
  unfold evaluate_math
  rw [h]

theorem claim1_witness :
    evaluate_math
      (fun s => if s = "[]" then Except.ok "[]" else Except.error "invalid syntax")
      "[]" = "Result: []" :=
  claim1_eval_is_unguarded _ "[]" "[]" (by rfl)

/-- Claim C2: check_pda_balanced returns the accepting "✓ Balanced" result
exactly when the parenthesis subsequence is properly nested — every prefix
has at least as many opening as closing parentheses and the totals agree —
with all other characters irrelevant to the outcome. -/
theorem claim2_pda_balanced_iff (expr : String) :
    (check_pda_balanced expr = "✓ Balanced" ↔ properlyNested expr.data) := by
  have h := pdaScan_balanced_iff expr.data []
  simpa [check_pda_balanced, properlyNested] using h

/-- Claim C3 counterexample: the empty string consists only of 0/1
characters (vacuously) and does not end in "01", so the claim as stated
demands the reject result there, but the code's alphabet pattern [01]+
requires at least one character and the empty string gets the
invalid-alphabet error instead. -/
theorem claim3_counterexample :
    (∀ c ∈ ("" : String).data, c = '0' ∨ c = '1') ∧
    endsWith01 ("" : String).data = false ∧
    check_dfa_ends_01 "" ≠ "✗ Rejected" ∧
    check_dfa_ends_01 "" = "Invalid input: use only 0 and 1" := by
  decide

/-- Claim C3 (amended): for every nonempty all-0/1 input, check_dfa_ends_01
accepts exactly the strings ending in "01" and rejects the rest; every
input containing a character other than 0/1 gets the invalid-alphabet
error; and the empty string also gets the invalid-alphabet error. -/
theorem claim3_amended (s : String) :
    (s.data ≠ [] → (∀ c ∈ s.data, c = '0' ∨ c = '1') →
      ((check_dfa_ends_01 s = "✓ Accepted" ↔ ∃ p, s.data = p ++ ['0', '1']) ∧
       (check_dfa_ends_01 s = "✗ Rejected" ↔ ¬∃ p, s.data = p ++ ['0', '1']))) ∧
    ((∃ c ∈ s.data, ¬(c = '0' ∨ c = '1')) →
      check_dfa_ends_01 s = "Invalid input: use only 0 and 1") ∧
    (s.data = [] → check_dfa_ends_01 s = "Invalid input: use only 0 and 1") := by
  refine ⟨?_, ?_, ?_⟩
  · intro hne hall
    have hfm : fullmatch01 s.data = true := (fullmatch01_iff s.data).mpr ⟨hne, hall⟩
    unfold check_dfa_ends_01
    rw [if_pos hfm]
    cases he : endsWith01 s.data with
    | false =>
      rw [if_neg (by simp [he])]
      constructor
      · constructor
        · intro h
          exact absurd h (by decide)
        · rintro ⟨p, hp⟩
          exact absurd ((endsWith01_iff s.data).mpr ⟨p, hp⟩) (by simp [he])
      · constructor
        · intro _ hex
          exact absurd ((endsWith01_iff s.data).mpr hex) (by simp [he])
        · intro _
          rfl
    | true =>
      rw [if_pos rfl]
      constructor
      · exact ⟨fun _ => (endsWith01_iff s.data).mp he, fun _ => rfl⟩
      · constructor
        · intro h
          exact absurd h (by decide)
        · intro hn
          exact ((hn ((endsWith01_iff s.data).mp he))).elim
  · rintro ⟨c, hc, hno⟩
    have hfm : fullmatch01 s.data = false := by
      cases hfull : fullmatch01 s.data with
      | false => rfl
      | true => exact absurd (((fullmatch01_iff s.data).mp hfull).2 c hc) hno
    unfold check_dfa_ends_01
    rw [if_neg (by simp [hfm])]
  · intro hnil
    have hfm : fullmatch01 s.data = false := by
      rw [hnil]
      rfl
    unfold check_dfa_ends_01
    rw [if_neg (by simp [hfm])]

theorem claim3_witness :
    check_dfa_ends_01 "101" = "✓ Accepted" ∧
    check_dfa_ends_01 "abc" = "Invalid input: use only 0 and 1" ∧
    check_dfa_ends_01 "" = "Invalid input: use only 0 and 1" :=
  ⟨((claim3_amended "101").1 (by decide) (by decide)).1.mpr ⟨['1'], by decide⟩,
   (claim3_amended "abc").2.1 ⟨'a', by decide, by decide⟩,
   (claim3_amended "").2.2 (by decide)⟩

/-- Claim C4 counterexample: the claim says the empty string is rejected,
but check_dfa_ends_01 returns the invalid-input error on it. -/
theorem claim4_counterexample :
    check_dfa_ends_01 "" ≠ "✗ Rejected" ∧
    check_dfa_ends_01 "" = "Invalid input: use only 0 and 1" := by
  decide

/-- Claim C4 (amended): the empty string gets the invalid-input error
(the alphabet pattern requires at least one character), while each
single-character string over {0,1} is rejected, since it cannot end in
"01". -/
theorem claim4_amended :
    check_dfa_ends_01 "" = "Invalid input: use only 0 and 1" ∧
    check_dfa_ends_01 "0" = "✗ Rejected" ∧
    check_dfa_ends_01 "1" = "✗ Rejected" := by
  decide

/-- Claim C6: the dialogue history length never exceeds 30 over any
sequence of add and clear operations from a fresh manager; after 31
sequential adds the length is 30 and the oldest retained entry is the one
added second; a subsequent clear empties the history. -/
theorem claim6_history_bound :
    (∀ ops : List HOp, (runOps ops).length ≤ 30) ∧
    (∀ f : Nat → Turn,
      runOps ((List.range 31).map (fun i => HOp.add (f i))) =
        (List.range 30).map (fun i => f (i + 1)) ∧
      runOps (((List.range 31).map (fun i => HOp.add (f i))) ++ [HOp.clear]) = []) := by
  have h31 : List.range 31 = List.range 30 ++ [30] := by
    rw [show (31 : Nat) = 30 + 1 from rfl, List.range_succ]
  have hmain : ∀ f : Nat → Turn,
      runOps ((List.range 31).map (fun i => HOp.add (f i))) =
        (List.range 30).map (fun i => f (i + 1)) := by
    intro f
    rw [runOps, h31, List.map_append, List.foldl_append]
    rw [show ((List.range 30).map fun i => HOp.add (f i)) =
        (((List.range 30).map f).map HOp.add) from by simp [List.map_map]]
    rw [foldl_adds_of_le ((List.range 30).map f) [] (by simp)]
    simp only [List.nil_append, List.map_cons, List.map_nil, List.foldl_cons,
      List.foldl_nil]
    rw [show stepOp ((List.range 30).map f) (HOp.add (f 30)) =
        pushTurn ((List.range 30).map f) (f 30) from rfl]
    rw [pushTurn_full _ _ (by simp)]
    exact drop_one_map_range f 29
  refine ⟨fun ops => runOps_length_le ops [] (by simp), fun f => ⟨hmain f, ?_⟩⟩
  rw [runOps, List.foldl_append]
  simp [stepOp]

/-- Claim C9: on the fallback path (tagger unavailable), empty or
whitespace-only input yields the empty result; a nonempty sentence with
fewer than 3 whitespace tokens is "too short"; otherwise the result is
"probably valid" exactly when the lower-cased text contains one of the
fixed auxiliary/modal/copula forms as a whole word, and "seems incomplete"
otherwise. -/
theorem claim9_parse_fallback (sentence : String) :
    (pyStrip sentence.data = [] → parse_sentence none sentence = "✗ Empty sentence.") ∧
    (pyStrip sentence.data ≠ [] → (pyWords (pyStrip sentence.data)).length < 3 →
      parse_sentence none sentence = "✗ Too short to be valid.") ∧
    (pyStrip sentence.data ≠ [] → 3 ≤ (pyWords (pyStrip sentence.data)).length →
      ((parse_sentence none sentence = "✓ Probably valid English sentence." ↔
          containsAuxWholeWord (pyLower (pyStrip sentence.data))) ∧
       (parse_sentence none sentence = "✗ Seems incomplete or incorrect." ↔
          ¬containsAuxWholeWord (pyLower (pyStrip sentence.data))))) := by
  refine ⟨?_, ?_, ?_⟩
  · intro h
    simp [parse_sentence, h]
  · intro hne hlt
    simp [parse_sentence, hne, hlt]
  · intro hne hge
    have hnl : ¬((pyWords (pyStrip sentence.data)).length < 3) := by omega
    cases haux : hasAuxVerb (pyLower (pyStrip sentence.data)) with
    | true =>
      constructor
      · exact ⟨fun _ => (hasAuxVerb_iff _).mp haux,
          fun _ => by simp [parse_sentence, hne, hnl, haux]⟩
      · constructor
        · intro h
          rw [show parse_sentence none sentence = "✓ Probably valid English sentence."
            from by simp [parse_sentence, hne, hnl, haux]] at h
          exact absurd h (by decide)
        · intro hn
          exact (hn ((hasAuxVerb_iff _).mp haux)).elim
    | false =>
      have hnc : ¬containsAuxWholeWord (pyLower (pyStrip sentence.data)) := by
        intro h
        have := (hasAuxVerb_iff _).mpr h
        rw [haux] at this
        cases this
      constructor
      · constructor
        · intro h
          rw [show parse_sentence none sentence = "✗ Seems incomplete or incorrect."
            from by simp [parse_sentence, hne, hnl, haux]] at h
          exact absurd h (by decide)
        · intro hcon
          exact (hnc hcon).elim
      · exact ⟨fun _ => hnc, fun _ => by simp [parse_sentence, hne, hnl, haux]⟩

theorem claim9_witness :
    parse_sentence none "" = "✗ Empty sentence." ∧
    parse_sentence none "hi there" = "✗ Too short to be valid." ∧
    parse_sentence none "the cat is here" = "✓ Probably valid English sentence." ∧
    parse_sentence none "cat dog bird" = "✗ Seems incomplete or incorrect." := by
  refine ⟨(claim9_parse_fallback "").1 (by decide),
    (claim9_parse_fallback "hi there").2.1 (by decide) (by decide),
    (((claim9_parse_fallback "the cat is here").2.2 (by decide) (by decide)).1).mpr
      ((hasAuxVerb_iff _).mp (by decide)),
    (((claim9_parse_fallback "cat dog bird").2.2 (by decide) (by decide)).2).mpr
      (fun hc => absurd ((hasAuxVerb_iff _).mpr hc) (by decide))⟩

theorem pySplit_ne_nil (sep : Char) (l : List Char) : pySplit sep l ≠ [] := by
  cases l with
  | nil => simp [pySplit]
  | cons c t =>
    by_cases h : c = sep
    · simp [pySplit, h]
    · cases hm : pySplit sep t with
      | nil => simp [pySplit, h, hm]
      | cons x xs => simp [pySplit, h, hm]

/-- The head of a Python split is the text before the first separator. -/
theorem pySplit_headD (sep : Char) (l : List Char) :
    (pySplit sep l).headD [] = l.takeWhile (fun c => c != sep) := by
  induction l with
  | nil => simp [pySplit]
  | cons c t ih =>
    by_cases h : c = sep
    · subst h
      simp [pySplit, List.takeWhile_cons]
    · cases hm : pySplit sep t with
      | nil => exact absurd hm (pySplit_ne_nil sep t)
      | cons x xs =>
        have hsplit : pySplit sep (c :: t) = (c :: x) :: xs := by
          simp [pySplit, h, hm]
        have ht : t.takeWhile (fun c2 => c2 != sep) = x := by
          rw [← ih, hm]
          rfl
        rw [hsplit]
        simp [List.takeWhile_cons, h, ht]

/-- Joining a Python split restores the original text. -/
theorem joinSep_pySplit (sep : Char) (l : List Char) :
    joinSep sep (pySplit sep l) = l := by
  induction l with
  | nil => rfl
  | cons c t ih =>
    by_cases h : c = sep
    · subst h
      rw [show pySplit c (c :: t) = [] :: pySplit c t from by simp [pySplit]]
      cases hm : pySplit c t with
      | nil => exact absurd hm (pySplit_ne_nil c t)
      | cons x xs =>
        rw [hm] at ih
        rw [show joinSep c ([] :: x :: xs) = [] ++ c :: joinSep c (x :: xs) from rfl]
        rw [ih]
        simp
    · cases hm : pySplit sep t with
      | nil => exact absurd hm (pySplit_ne_nil sep t)
      | cons x xs =>
        rw [show pySplit sep (c :: t) = (c :: x) :: xs from by simp [pySplit, h, hm]]
        rw [hm] at ih
        cases xs with
        | nil =>
          rw [show joinSep sep [c :: x] = c :: x from rfl]
          rw [show joinSep sep [x] = x from rfl] at ih
          rw [ih]
        | cons y ys =>
          rw [show joinSep sep ((c :: x) :: y :: ys) =
            (c :: x) ++ sep :: joinSep sep (y :: ys) from rfl]
          rw [show joinSep sep (x :: y :: ys) =
            x ++ sep :: joinSep sep (y :: ys) from rfl] at ih
          rw [← ih]
          simp

/-- Joining everything after the head of a Python split yields the text
after the first separator, or nothing when the separator is absent. -/
theorem joinSep_drop_pySplit (sep : Char) (l : List Char) :
    joinSep sep ((pySplit sep l).drop 1) =
      (if sep ∈ l then afterFirst sep l else []) := by
  induction l with
  | nil => simp [pySplit, joinSep]
  | cons c t ih =>
    by_cases h : c = sep
    · subst h
      rw [show pySplit c (c :: t) = [] :: pySplit c t from by simp [pySplit]]
      simp only [List.drop_succ_cons, List.drop_zero]
      rw [joinSep_pySplit]
      rw [if_pos (List.mem_cons_self c t)]
      simp [afterFirst]
    · cases hm : pySplit sep t with
      | nil => exact absurd hm (pySplit_ne_nil sep t)
      | cons x xs =>
        rw [show pySplit sep (c :: t) = (c :: x) :: xs from by simp [pySplit, h, hm]]
        simp only [List.drop_succ_cons, List.drop_zero]
        rw [hm] at ih
        simp only [List.drop_succ_cons, List.drop_zero] at ih
        rw [ih]
        by_cases hs : sep ∈ t
        · rw [if_pos hs, if_pos (List.mem_cons_of_mem c hs),
            show afterFirst sep (c :: t) = afterFirst sep t from by simp [afterFirst, h]]
        · rw [if_neg hs, if_neg ?_]
          intro hmem
          rcases List.mem_cons.mp hmem with h1 | h2
          · exact h h1.symm
          · exact hs h2

/-- A split on an absent separator keeps the text whole. -/
theorem pySplit_of_not_mem (sep : Char) (l : List Char) (h : sep ∉ l) :
    pySplit sep l = [l] := by
  induction l with
  | nil => rfl
  | cons c t ih =>
    have hc : ¬c = sep := fun hh => h (by rw [hh]; exact List.mem_cons_self sep t)
    have ht : sep ∉ t := fun hh => h (List.mem_cons_of_mem c hh)
    simp [pySplit, hc, ih ht]

/-- The regex search returns some group exactly when the pattern matches at
a leftmost position: every earlier position fails. -/
theorem searchStringColon_some (l : List Char) : ∀ g : List Char,
    (searchStringColon l = some g ↔
      ∃ i, stringColonGroup (l.drop i) = some g ∧
        ∀ j < i, stringColonGroup (l.drop j) = none) := by
  induction l with
  | nil =>
    intro g
    constructor
    · intro h
      simp [searchStringColon] at h
    · rintro ⟨i, hi, -⟩
      rw [List.drop_nil] at hi
      rw [show stringColonGroup [] = none from rfl] at hi
      cases hi
  | cons c t ih =>
    intro g
    rw [show searchStringColon (c :: t) =
      (match stringColonGroup (c :: t) with
       | some g2 => some g2
       | none => searchStringColon t) from rfl]
    cases h0 : stringColonGroup (c :: t) with
    | some g0 =>
      constructor
      · intro h
        injection h with h
        refine ⟨0, ?_, fun j hj => absurd hj (by omega)⟩
        rw [List.drop_zero, h0, h]
      · rintro ⟨i, hi, hmin⟩
        cases i with
        | zero =>
          rw [List.drop_zero] at hi
          rw [h0] at hi
          exact hi
        | succ i2 =>
          have hz := hmin 0 (by omega)
          rw [List.drop_zero] at hz
          rw [h0] at hz
          cases hz
    | none =>
      rw [ih g]
      constructor
      · rintro ⟨i, hi, hmin⟩
        refine ⟨i + 1, by simpa using hi, ?_⟩
        rintro (_ | j) hj
        · simpa using h0
        · simpa using hmin j (by omega)
      · rintro ⟨i, hi, hmin⟩
        cases i with
        | zero =>
          rw [List.drop_zero] at hi
          rw [h0] at hi
          cases hi
        | succ i2 =>
          refine ⟨i2, by simpa using hi, fun j hj => ?_⟩
          have := hmin (j + 1) (by omega)
          simpa using this

/-- The regex search fails exactly when no position matches. -/
theorem searchStringColon_none (l : List Char) :
    (searchStringColon l = none ↔ ∀ j, stringColonGroup (l.drop j) = none) := by
  induction l with
  | nil =>
    simp only [searchStringColon, true_iff]
    intro j
    rw [List.drop_nil]
    rfl
  | cons c t ih =>
    rw [show searchStringColon (c :: t) =
      (match stringColonGroup (c :: t) with
       | some g2 => some g2
       | none => searchStringColon t) from rfl]
    cases h0 : stringColonGroup (c :: t) with
    | some g0 =>
      constructor
      · intro h
        cases h
      · intro h
        have hz := h 0
        rw [List.drop_zero] at hz
        rw [h0] at hz
        cases hz
    | none =>
      rw [ih]
      constructor
      · intro h
        rintro (_ | j)
        · simpa using h0
        · simpa using h j
      · intro h j
        have := h (j + 1)
        simpa using this

/-- Unfolding of classify on a regex command: with the lower-cased trimmed
text starting with "regex:" and no daily-chat trigger substring, the
classifier takes the regex branch and computes the pattern and string
parameters exactly as the source does. -/
theorem classify_regex_eq (text : String)
    (hpre : List.isPrefixOf "regex:".data (pyLower (pyStrip text.data)) = true)
    (hd1 : hasSubstr "daily conversation".data (pyLower (pyStrip text.data)) = false)
    (hd2 : hasSubstr "everyday chat".data (pyLower (pyStrip text.data)) = false) :
    classify text = ("regex",
      [("pattern",
        String.mk (pyStrip ((pySplit ';' (afterFirst ':' (pyStrip text.data))).headD []))),
       ("string",
        String.mk
          (match searchStringColon
              (joinSep ';' ((pySplit ';' (afterFirst ':' (pyStrip text.data))).drop 1)) with
           | some g => pyStrip g
           | none => []))]) := by
  obtain ⟨tl, htl⟩ := (isPrefixOf_iff _ _).mp hpre
  have htl2 : pyLower (pyStrip text.data) =
      'r' :: 'e' :: 'g' :: 'e' :: 'x' :: ':' :: tl := by
    simpa using htl
  rw [htl2] at hpre hd1 hd2
  have hp1 : List.isPrefixOf "parse:".data
      ('r' :: 'e' :: 'g' :: 'e' :: 'x' :: ':' :: tl) = false := rfl
  have hp2 : List.isPrefixOf "dfa:".data
      ('r' :: 'e' :: 'g' :: 'e' :: 'x' :: ':' :: tl) = false := rfl
  have hp3 : List.isPrefixOf "pda:".data
      ('r' :: 'e' :: 'g' :: 'e' :: 'x' :: ':' :: tl) = false := rfl
  unfold classify
  rw [htl2]
  rw [if_neg (by simp), if_neg (by simp), if_neg (by simp [hd1, hd2]),
    if_neg (by simp [hp1]), if_neg (by simp [hp2]), if_neg (by simp [hp3]),
    if_pos hpre]

/-- Claim C5 counterexample: with two string: segments, the code keeps
everything after the first occurrence, not after the final one as the
claim states (the final-occurrence reading would give "y"). -/
theorem claim5_counterexample :
    classify "regex: a+; string: x string: y" =
      ("regex", [("pattern", "a+"), ("string", "x string: y")]) ∧
    ("x string: y" : String) ≠ "y" := by
  decide

/-- Claim C5 (amended): for a regex command (no daily-chat trigger), the
pattern is the text before the first semicolon of the remainder after the
first colon, trimmed, and the string parameter is everything after the
FIRST occurrence of "string:" in the rest (the leftmost position where the
pattern matches — every earlier position fails), trimmed, or empty when no
occurrence exists. -/
theorem claim5_amended (text : String)
    (hpre : List.isPrefixOf "regex:".data (pyLower (pyStrip text.data)) = true)
    (hd1 : hasSubstr "daily conversation".data (pyLower (pyStrip text.data)) = false)
    (hd2 : hasSubstr "everyday chat".data (pyLower (pyStrip text.data)) = false) :
    (classify text = ("regex",
      [("pattern",
        String.mk (pyStrip (beforeFirst ';' (afterFirst ':' (pyStrip text.data))))),
       ("string",
        String.mk (pyStrip
          ((searchStringColon
            (restAfterSemi (afterFirst ':' (pyStrip text.data)))).getD [])))])) ∧
    (∀ g, searchStringColon (restAfterSemi (afterFirst ':' (pyStrip text.data))) = some g →
      ∃ i, stringColonGroup ((restAfterSemi (afterFirst ':' (pyStrip text.data))).drop i) =
          some g ∧
        ∀ j < i,
          stringColonGroup ((restAfterSemi (afterFirst ':' (pyStrip text.data))).drop j) =
            none) ∧
    (searchStringColon (restAfterSemi (afterFirst ':' (pyStrip text.data))) = none →
      ∀ j, stringColonGroup ((restAfterSemi (afterFirst ':' (pyStrip text.data))).drop j) =
        none) := by
  refine ⟨?_, fun g hg => (searchStringColon_some _ g).mp hg,
    fun hn j => (searchStringColon_none _).mp hn j⟩
  rw [classify_regex_eq text hpre hd1 hd2]
  have hrest : joinSep ';' ((pySplit ';' (afterFirst ':' (pyStrip text.data))).drop 1) =
      restAfterSemi (afterFirst ':' (pyStrip text.data)) := by
    rw [joinSep_drop_pySplit]
    rfl
  rw [hrest, pySplit_headD]
  have hmatch : ∀ o : Option (List Char),
      (match o with | some g => pyStrip g | none => []) = pyStrip (o.getD []) := by
    rintro (_ | g) <;> rfl
  rw [hmatch]
  rfl

theorem claim5_witness :
    classify "regex: a+; string: aaa" =
      ("regex", [("pattern", "a+"), ("string", "aaa")]) := by
  have h := (claim5_amended "regex: a+; string: aaa" (by decide) (by decide) (by decide)).1
  exact h.trans (by decide)

/-- Claim C10: a regex command with no semicolon after the prefix still
classifies as regex, with the whole remainder after the first colon,
trimmed, as the pattern, and an empty string parameter. -/
theorem claim10_regex_no_semicolon (text : String)
    (hpre : List.isPrefixOf "regex:".data (pyLower (pyStrip text.data)) = true)
    (hsemi : ';' ∉ afterFirst ':' (pyStrip text.data))
    (hd1 : hasSubstr "daily conversation".data (pyLower (pyStrip text.data)) = false)
    (hd2 : hasSubstr "everyday chat".data (pyLower (pyStrip text.data)) = false) :
    classify text = ("regex",
      [("pattern", String.mk (pyStrip (afterFirst ':' (pyStrip text.data)))),
       ("string", "")]) := by
  rw [classify_regex_eq text hpre hd1 hd2]
  rw [pySplit_of_not_mem ';' _ hsemi]
  rfl

theorem claim10_witness :
    classify "regex:" = ("regex", [("pattern", ""), ("string", "")]) := by
  have h := claim10_regex_no_semicolon "regex:" (by decide) (by decide) (by decide)
    (by decide)
  exact h.trans (by decide)

/-- Two consecutive pushes append the two turns at the end, evicting at
most the two oldest entries. -/
theorem pushTurn_pushTurn (l : List Turn) (u a : Turn) (hl : l.length ≤ 30) :
    ∃ k ≤ 2, pushTurn (pushTurn l u) a = l.drop k ++ [u, a] := by
  by_cases h28 : l.length ≤ 28
  · refine ⟨0, by omega, ?_⟩
    rw [pushTurn_of_le l u (by omega), pushTurn_of_le _ a (by simp; omega)]
    simp
  · by_cases h29 : l.length = 29
    · refine ⟨1, by omega, ?_⟩
      rw [pushTurn_of_le l u (by omega),
        pushTurn_full _ a (by simp [h29]),
        List.drop_append_of_le_length (by omega)]
      simp
    · have h30 : l.length = 30 := by omega
      refine ⟨2, by omega, ?_⟩
      rw [pushTurn_full l u h30,
        pushTurn_full _ a (by simp [h30]),
        List.drop_append_of_le_length (by simp [h30]),
        List.drop_drop]
      simp

set_option maxRecDepth 4000 in
/-- Claim C7 counterexample: with the history at capacity (30 turns), a
general-intent chat call does not leave the rest of the history unchanged
— the oldest entries are evicted, so the new history is not the old one
with the two turns appended. -/
theorem claim7_counterexample :
    (chat env0 (List.replicate 30 ⟨"user", "x", "t0"⟩) "hello" "t1" "t2").1 ≠
      (List.replicate 30 (⟨"user", "x", "t0"⟩ : Turn)) ++
        [⟨"user", "hello", "t1"⟩, ⟨"assistant", fallbackText, "t2"⟩] := by
  decide

/-- Claim C7 (amended): a clear command empties the history and returns a
confirmation with no turn recorded; a help command returns the help text
with the history unchanged; for every other intent the call returns the
history with exactly one user turn and one assistant turn pushed, and —
whenever the history holds at most 28 turns, so that no FIFO eviction
occurs — the new history is exactly the old one with the two turns
appended. -/
theorem claim7_amended (env : Collab) (hist : List Turn) (text tu ta : String) :
    ((classify text).1 = "command" →
      lookupParam (classify text).2 "cmd" = some "clear" →
      chat env hist text tu ta = ([], "✓ Conversation cleared")) ∧
    ((classify text).1 = "help" →
      chat env hist text tu ta = (hist, helpText)) ∧
    ((classify text).1 ≠ "command" → (classify text).1 ≠ "help" →
      ∃ reply,
        chat env hist text tu ta =
          (pushTurn (pushTurn hist ⟨"user", text, tu⟩) ⟨"assistant", reply, ta⟩,
            reply) ∧
        (hist.length ≤ 28 →
          pushTurn (pushTurn hist ⟨"user", text, tu⟩) ⟨"assistant", reply, ta⟩ =
            hist ++ [⟨"user", text, tu⟩, ⟨"assistant", reply, ta⟩])) := by
  have happ : ∀ u a : Turn, hist.length ≤ 28 →
      pushTurn (pushTurn hist u) a = hist ++ [u, a] := by
    intro u a hl
    rw [pushTurn_of_le hist u (by omega), pushTurn_of_le _ a (by simp; omega)]
    simp
  refine ⟨?_, ?_, ?_⟩
  · intro h1 h2
    unfold chat
    rw [if_pos ⟨h1, h2⟩]
  · intro h1
    unfold chat
    rw [if_neg (fun hc => absurd (h1.symm.trans hc.1) (by decide)), if_pos h1]
  · intro h1 h2
    unfold chat
    rw [if_neg (fun hc => h1 hc.1), if_neg h2]
    by_cases hd : (classify text).1 = "daily"
    · rw [if_pos hd]
      exact ⟨_, rfl, fun hl => happ _ _ hl⟩
    · rw [if_neg hd]
      exact ⟨_, rfl, fun hl => happ _ _ hl⟩

set_option maxRecDepth 4000 in
theorem claim7_witness :
    chat env0 [] "clear" "t1" "t2" = ([], "✓ Conversation cleared") ∧
    chat env0 [] "help" "t1" "t2" = ([], helpText) ∧
    (chat env0 [] "hello" "t1" "t2").1 =
      [⟨"user", "hello", "t1"⟩, ⟨"assistant", fallbackText, "t2"⟩] := by
  refine ⟨(claim7_amended env0 [] "clear" "t1" "t2").1 (by decide) (by decide),
    (claim7_amended env0 [] "help" "t1" "t2").2.1 (by decide), ?_⟩
  obtain ⟨r, hr, -⟩ :=
    (claim7_amended env0 [] "hello" "t1" "t2").2.2 (by decide) (by decide)
  have hs : (chat env0 [] "hello" "t1" "t2").2 = r := congrArg Prod.snd hr
  have h2 : r = fallbackText := hs.symm.trans (by decide)
  rw [hr, h2]
  decide

/-- Claim C8: with the external chat collaborator unavailable, a
daily-intent chat call replies that the collaborator is not configured,
and both the user turn and that reply are still appended (at the end of
the history, after any FIFO eviction). -/
theorem claim8_daily_unavailable (env : Collab) (hist : List Turn)
    (text tu ta : String) (hav : env.available = false)
    (hlen : hist.length ≤ 30) (hdaily : (classify text).1 = "daily") :
    (chat env hist text tu ta).2 =
      "⚠️ Perplexity API not configured. Set PERPLEXITY_API_KEY." ∧
    ∃ k ≤ 2, (chat env hist text tu ta).1 =
      hist.drop k ++
        [⟨"user", text, tu⟩,
         ⟨"assistant", "⚠️ Perplexity API not configured. Set PERPLEXITY_API_KEY.",
           ta⟩] := by
  have hchat : chat env hist text tu ta =
      (pushTurn (pushTurn hist ⟨"user", text, tu⟩)
        ⟨"assistant", "⚠️ Perplexity API not configured. Set PERPLEXITY_API_KEY.",
          ta⟩,
       "⚠️ Perplexity API not configured. Set PERPLEXITY_API_KEY.") := by
    unfold chat
    rw [if_neg (fun hc => absurd (hdaily.symm.trans hc.1) (by decide)),
      if_neg (fun hc => absurd (hdaily.symm.trans hc) (by decide)),
      if_pos hdaily, hav]
    rfl
  rw [hchat]
  obtain ⟨k, hk, heq⟩ := pushTurn_pushTurn hist _ _ hlen
  exact ⟨rfl, k, hk, heq⟩

set_option maxRecDepth 4000 in
theorem claim8_witness :
    (chat env0 [] "daily conversation hello" "t1" "t2").2 =
      "⚠️ Perplexity API not configured. Set PERPLEXITY_API_KEY." ∧
    (chat env0 [] "daily conversation hello" "t1" "t2").1 =
      [⟨"user", "daily conversation hello", "t1"⟩,
       ⟨"assistant", "⚠️ Perplexity API not configured. Set PERPLEXITY_API_KEY.",
         "t2"⟩] := by
  obtain ⟨h1, k, hk, h2⟩ := claim8_daily_unavailable env0 [] "daily conversation hello"
    "t1" "t2" rfl (by decide) (by decide)
  refine ⟨h1, ?_⟩
  rw [h2]
  simp

theorem claim2_witness :
    check_pda_balanced "(a)(b)" = "✓ Balanced" ∧
    check_pda_balanced "((" ≠ "✓ Balanced" := by
  constructor
  · exact (claim2_pda_balanced_iff "(a)(b)").mpr ⟨by decide, by decide⟩
  · intro h
    exact absurd ((claim2_pda_balanced_iff "((").mp h).2 (by decide)

theorem claim6_witness :
    (runOps [HOp.clear]).length ≤ 30 ∧ (runOps []).length ≤ 30 :=
  ⟨claim6_history_bound.1 [HOp.clear], claim6_history_bound.1 []⟩

end Tocbot
